import Mathlib

/-!
Shallow embedding of the core of `src/password_generator.py` (a secure
password / passphrase generator) together with proofs of the behavioural
claims about it.

Modelling conventions:
* Python strings of characters are modelled as `List Char`; the module-level
  constants keep their source names.
* The cryptographically secure random primitives (`secrets.choice`,
  `secrets.randbelow`) are determinised by passing the pre-drawn random
  values in explicitly as a tape (`List Nat`).  `secrets.choice seq` returns
  `seq[secrets.randbelow seq.length]`, so a draw is an index known to be
  below the sequence length; `secrets_choice` selects with the index reduced
  `% length`, which is the identity on every in-range draw.
* Python `int` is modelled as `Int` (the GUI passes only non-negative
  counts, but the functions themselves accept any `int`).
* `raise ValueError(msg)` is modelled with `Except String`.
* `Char.toLower`/`Char.toUpper` model `str.lower`/capitalisation on the
  ASCII texts the program works with.
-/

namespace PasswordGen

/-- Python: `AMBIGUOUS = set("Il1O0B8S5Z2QG6")`. -/
def AMBIGUOUS : List Char := "Il1O0B8S5Z2QG6".toList

/-- Python: `DEFAULT_SYMBOLS = "!@#$%^&*()-_=+[]{};:,./?~"` (braces escaped). -/
def DEFAULT_SYMBOLS : String := "!@#$%^&*()-_=+[]\x7b\x7d;:,./?~"

/-- Python: `string.ascii_lowercase`. -/
def string_ascii_lowercase : List Char := "abcdefghijklmnopqrstuvwxyz".toList

/-- Python: `string.ascii_uppercase`. -/
def string_ascii_uppercase : List Char := "ABCDEFGHIJKLMNOPQRSTUVWXYZ".toList

/-- Python: `string.digits`. -/
def string_digits : List Char := "0123456789".toList

/-- Model of `secrets.choice seq` where `h` is the secure random draw
(`secrets.randbelow seq.length`); `% length` is the identity on in-range
draws and keeps the definition total. -/
def secrets_choice {α : Type} [Inhabited α] (seq : List α) (h : Nat) : α :=
  seq.getD (h % seq.length) default

/-- Keep-first-occurrence deduplication: the `seen`/`out` loop of
`build_charset` (and of `_load_wordlist_from_path`), with `acc` playing the
role of `out` (membership in `out` coincides with membership in `seen`). -/
def dedupAux {α : Type} [DecidableEq α] : List α → List α → List α
  | [], acc => acc
  | x :: xs, acc => dedupAux xs (if x ∈ acc then acc else acc ++ [x])

/-- Deduplicate a list preserving the first occurrence of each element. -/
def dedupFirst {α : Type} [DecidableEq α] (l : List α) : List α :=
  dedupAux l []

/-- The concatenation-plus-filter part of `build_charset`, before the final
deduplication: selected class alphabets in the fixed order lower, upper,
digits, symbols; the symbol alphabet is the stripped custom string when
non-empty, else `DEFAULT_SYMBOLS`; ambiguous characters are dropped first
when requested. -/
def preDedup (include_lower include_upper include_digits include_symbols : Bool)
    (custom_symbols : String) (exclude_ambiguous : Bool) : List Char :=
  let cs : List Char :=
    (if include_lower then string_ascii_lowercase else [])
      ++ (if include_upper then string_ascii_uppercase else [])
      ++ (if include_digits then string_digits else [])
      ++ (if include_symbols then
            (if custom_symbols.trim = "" then DEFAULT_SYMBOLS.toList
             else custom_symbols.trim.toList)
          else [])
  if exclude_ambiguous then cs.filter (fun ch => decide (ch ∉ AMBIGUOUS)) else cs

/-- Python `build_charset`: concatenate the selected class alphabets, drop
ambiguous characters when requested, then deduplicate keeping first
occurrences. -/
def build_charset (include_lower include_upper include_digits include_symbols : Bool)
    (custom_symbols : String) (exclude_ambiguous : Bool) : List Char :=
  dedupFirst (preDedup include_lower include_upper include_digits include_symbols
    custom_symbols exclude_ambiguous)

/-- Python `estimate_entropy_bits`: `0.0` when `length <= 0 or charset_size <= 1`,
else `length * math.log2(charset_size)`; the float result is modelled in `ℝ`. -/
noncomputable def estimate_entropy_bits (length charset_size : Int) : ℝ :=
  if length ≤ 0 ∨ charset_size ≤ 1 then 0
  else (length : ℝ) * Real.logb 2 (charset_size : ℝ)

/-- Python: `pools.get(key, "")` on the `pools` dict (association list with
the dict's insertion order). -/
def dictGet (pools : List (String × List Char)) (k : String) : List Char :=
  match pools.find? (fun kp => kp.1 == k) with
  | some kp => kp.2
  | none => []

/-- Python: `sum(max(0, n) for n in required.values())`. -/
def totalRequired (required : List (String × Int)) : Int :=
  (required.map (fun kn => max 0 kn.2)).sum

/-- The message of `ValueError(f"Required characters ({total_req}) exceed length {length}.")`. -/
def exceedsMsg (total : Int) (length : Nat) : String :=
  "Required characters (" ++ toString total ++ ") exceed length "
    ++ toString length ++ "."

/-- One single quote character, `'`. -/
def singleQuote : String := String.mk [Char.ofNat 39]

/-- The message of `ValueError(f"Requirement for '{key}' but its character set is empty.")`. -/
def poolErrMsg (key : String) : String :=
  "Requirement for " ++ singleQuote ++ key ++ singleQuote
    ++ " but its character set is empty."

/-- Draw `n` characters with `secrets.choice pool`, consuming the random
tape one entry per draw; returns the drawn characters and the rest of the
tape. -/
def drawN {α : Type} [Inhabited α] (pool : List α) : Nat → List Nat → List α × List Nat
  | 0, tape => ([], tape)
  | n + 1, tape =>
    let c := secrets_choice pool (tape.headD 0)
    let rest := drawN pool n tape.tail
    (c :: rest.1, rest.2)

/-- The required-character loop of `generate_with_requirements`: for each
`(key, n)` of the `required` dict in order, look the pool up with
`pools.get(key, "")`, raise when `n` is truthy (non-zero) while the pool is
empty, and draw `range(n)` (that is, `n.toNat`) characters from the pool. -/
def drawRequired (pools : List (String × List Char)) :
    List (String × Int) → List Nat → Except String (List Char × List Nat)
  | [], tape => .ok ([], tape)
  | (k, n) :: rest, tape =>
    let pool := dictGet pools k
    if n ≠ 0 ∧ pool = [] then
      .error (poolErrMsg k)
    else
      let res := drawN pool n.toNat tape
      match drawRequired pools rest res.2 with
      | .ok p => .ok (res.1 ++ p.1, p.2)
      | .error e => .error e

/-- Swap the elements at positions `i` and `j`
(Python `l[i], l[j] = l[j], l[i]`); out-of-range indices leave the list
unchanged (unreachable in the modelled program). -/
def listSwap {α : Type} (l : List α) (i j : Nat) : List α :=
  match l[i]?, l[j]? with
  | some a, some b => (l.set i b).set j a
  | _, _ => l

/-- The Fisher–Yates loop `for i in range(len(l) - 1, 0, -1)`: at loop index
`i` draw `j = secrets.randbelow(i + 1)` (the next tape entry) and swap
positions `i` and `j`. -/
def fyAux {α : Type} : List α → Nat → List Nat → List α
  | l, 0, _ => l
  | l, i + 1, tape => fyAux (listSwap l (i + 1) (tape.headD 0)) i tape.tail

/-- The `secrets`-based Fisher–Yates shuffle of `generate_with_requirements`,
with the drawn random integers supplied as `tape`. -/
def fyShuffle {α : Type} (l : List α) (tape : List Nat) : List α :=
  fyAux l (l.length - 1) tape

/-- A tape of shuffle draws as `secrets.randbelow` produces them for a list
of length `n`: one draw per loop index `i = n-1, …, 1` (so `n - 1` draws),
the `k`-th drawn uniformly in `[0, n-1-k]`. -/
def validDraws (n : Nat) (ds : List Nat) : Prop :=
  ds.length = n - 1 ∧ ∀ k : Nat, ds.getD k 0 ≤ n - 1 - k

/-- Python `generate_with_requirements`: check the charset, check the
clamped required total against `length`, pre-place the required characters,
fill the remainder from the full charset, and Fisher–Yates-shuffle the
result.  The three phases consume the three random tapes. -/
def generate_with_requirements (length : Nat) (pools : List (String × List Char))
    (required : List (String × Int)) (full_charset : List Char)
    (reqTape fillTape shuffleTape : List Nat) : Except String (List Char) :=
  if full_charset = [] then .error "Character set is empty."
  else if (length : Int) < totalRequired required then
    .error (exceedsMsg (totalRequired required) length)
  else
    match drawRequired pools required reqTape with
    | .error e => .error e
    | .ok p =>
      let fillers := (drawN full_charset (length - p.1.length) fillTape).1
      .ok (fyShuffle (p.1 ++ fillers) shuffleTape)

/-- Python `str.capitalize()`: first character upper-cased, the remaining
characters lower-cased. -/
def pyCapitalize (w : String) : String :=
  match w.toList with
  | [] => ""
  | c :: rest => String.mk (Char.toUpper c :: rest.map Char.toLower)

/-- Upper-case the first character, leave the rest exactly as drawn (the
spec's description of capitalisation). -/
def upperFirstKeepRest (w : String) : String :=
  match w.toList with
  | [] => ""
  | c :: rest => String.mk (Char.toUpper c :: rest)

/-- Python `sep.join(picks)`. -/
def joinSep (sep : String) : List String → String
  | [] => ""
  | [w] => w
  | w :: rest => w ++ sep ++ joinSep sep rest

/-- Plain concatenation of a list of strings. -/
def concatAll : List String → String
  | [] => ""
  | w :: rest => w ++ concatAll rest

/-- Python `generate_passphrase`: `n_words` independent `secrets.choice`
draws from `words` (one tape entry per draw), optional `str.capitalize` of
each pick, joined with `sep`. -/
def generate_passphrase (n_words : Nat) (words : List String) (sep : String)
    (cap : Bool) (tape : List Nat) : String :=
  let picks := (List.range n_words).map (fun k => secrets_choice words (tape.getD k 0))
  joinSep sep (if cap then picks.map pyCapitalize else picks)

/-- Split a text into lines at newline characters, the accumulator holding
the current line reversed (models Python's line iteration over the file). -/
def splitLinesAux : List Char → List Char → List (List Char)
  | [], cur => [cur.reverse]
  | c :: rest, cur =>
    if c = '\n' then cur.reverse :: splitLinesAux rest []
    else splitLinesAux rest (c :: cur)

/-- The lines of a text, as character lists. -/
def splitLines (text : String) : List (List Char) :=
  splitLinesAux text.toList []

/-- Python `str.strip()` on a line: drop leading and trailing whitespace. -/
def stripChars (cs : List Char) : List Char :=
  ((cs.dropWhile Char.isWhitespace).reverse.dropWhile Char.isWhitespace).reverse

/-- One iteration of the wordlist filter of `_load_wordlist_from_path`:
strip the line, skip it when empty, accept it when every character
satisfies `("a" <= ch.lower() <= "z") or ch in ("'", "-")`, and append the
lower-cased word. -/
def lineAccept (line : List Char) : Option String :=
  let w := stripChars line
  if w = [] then none
  else if w.all (fun ch =>
      decide (('a' ≤ ch.toLower ∧ ch.toLower ≤ 'z') ∨ ch = Char.ofNat 39 ∨ ch = '-'))
  then some (String.mk (w.map Char.toLower))
  else none

/-- The pure filtering pipeline of `_load_wordlist_from_path`: accepted,
lower-cased words of the text, deduplicated keeping first occurrences. -/
def load_wordlist (text : String) : List String :=
  dedupFirst ((splitLines text).filterMap lineAccept)

/-- The effect of `_load_wordlist_from_path` on the active wordlist
(`self.wordlist`): when the filtered list is non-empty it replaces the
current list wholesale and the call reports success; otherwise the current
list is kept and the call reports failure. -/
def load_wordlist_update (current : List String) (text : String) :
    List String × Bool :=
  let filtered := load_wordlist text
  if filtered ≠ [] then (filtered, true) else (current, false)

/-- The passphrase branch of `PasswordGeneratorWindow.on_generate`: empty
separator text falls back to `"-"`; an empty wordlist is rejected with the
labelled error before any generation; otherwise `count` passphrases are
generated (each with its own tape). -/
def on_generate_passphrase (wordlist : List String) (n count : Nat)
    (sepText : String) (cap : Bool) (tapes : List (List Nat)) :
    Except String (List String) :=
  let sep := if sepText = "" then "-" else sepText
  if wordlist = [] then .error "No wordlist available. Load a wordlist first."
  else .ok ((List.range count).map
    (fun i => generate_passphrase n wordlist sep cap (tapes.getD i [])))

/-! ### Lemmas about keep-first deduplication -/

theorem dedupAux_nodup {α : Type} [DecidableEq α] :
    ∀ (l acc : List α), acc.Nodup → (dedupAux l acc).Nodup := by
  intro l
  induction l with
  | nil => intro acc h; exact h
  | cons x xs ih =>
    intro acc h
    simp only [dedupAux]
    split
    · exact ih acc h
    · next hx =>
      refine ih _ ?_
      rw [List.nodup_append]
      refine ⟨h, List.nodup_singleton x, ?_⟩
      intro a ha hax
      rw [List.mem_singleton] at hax
      subst hax
      exact hx ha

theorem dedupAux_mem {α : Type} [DecidableEq α] :
    ∀ (l acc : List α) (c : α), c ∈ dedupAux l acc ↔ c ∈ acc ∨ c ∈ l := by
  intro l
  induction l with
  | nil => intro acc c; simp [dedupAux]
  | cons x xs ih =>
    intro acc c
    simp only [dedupAux]
    split
    · next hx =>
      rw [ih]
      constructor
      · rintro (h | h)
        · exact Or.inl h
        · exact Or.inr (List.mem_cons_of_mem x h)
      · rintro (h | h)
        · exact Or.inl h
        · rcases List.mem_cons.mp h with rfl | h
          · exact Or.inl hx
          · exact Or.inr h
    · rw [ih]
      simp only [List.mem_append, List.mem_singleton, List.mem_cons]
      tauto

theorem dedupAux_sublist {α : Type} [DecidableEq α] :
    ∀ (l acc : List α), ∃ t, dedupAux l acc = acc ++ t ∧ t.Sublist l := by
  intro l
  induction l with
  | nil => intro acc; exact ⟨[], by simp [dedupAux]⟩
  | cons x xs ih =>
    intro acc
    simp only [dedupAux]
    split
    · obtain ⟨t, ht, hs⟩ := ih acc
      exact ⟨t, ht, hs.trans (List.sublist_cons_self x xs)⟩
    · obtain ⟨t, ht, hs⟩ := ih (acc ++ [x])
      refine ⟨x :: t, ?_, List.cons_sublist_cons.mpr hs⟩
      rw [ht, List.append_assoc]
      rfl

theorem dedupFirst_nodup {α : Type} [DecidableEq α] (l : List α) :
    (dedupFirst l).Nodup :=
  dedupAux_nodup l [] List.nodup_nil

theorem dedupFirst_mem {α : Type} [DecidableEq α] (l : List α) (c : α) :
    c ∈ dedupFirst l ↔ c ∈ l := by
  rw [dedupFirst, dedupAux_mem]
  simp

theorem dedupFirst_sublist {α : Type} [DecidableEq α] (l : List α) :
    (dedupFirst l).Sublist l := by
  obtain ⟨t, ht, hs⟩ := dedupAux_sublist l ([] : List α)
  rw [dedupFirst, ht]
  simpa using hs

/-! ### C4: build_charset -/

/-- C4: for every combination of inclusion flags, custom symbol string and
exclude-ambiguous flag, `build_charset` returns a duplicate-free list that
is an order-preserving subsequence of the class-priority concatenation
(lower, upper, digits, symbols — ambiguous exclusion applied before
deduplication, first occurrences kept), contains exactly the characters of
that filtered concatenation, and no ambiguous character when the flag is
set; in particular selecting only lowercase yields exactly the 26 lowercase
ASCII letters in order. -/
theorem c4_build_charset (lo up di sy : Bool) (custom : String) (excl : Bool) :
    (build_charset lo up di sy custom excl).Nodup ∧
    (excl = true → ∀ c ∈ build_charset lo up di sy custom excl, c ∉ AMBIGUOUS) ∧
    (build_charset lo up di sy custom excl).Sublist (preDedup lo up di sy custom excl) ∧
    (∀ c, c ∈ build_charset lo up di sy custom excl ↔ c ∈ preDedup lo up di sy custom excl) ∧
    build_charset true false false false "" false = string_ascii_lowercase := by
  refine ⟨dedupFirst_nodup _, ?_, dedupFirst_sublist _, fun c => dedupFirst_mem _ c, by decide⟩
  rintro rfl c hc
  rw [build_charset, dedupFirst_mem] at hc
  rw [preDedup] at hc
  simp only [if_pos rfl] at hc
  have := (List.mem_filter.mp hc).2
  simpa using of_decide_eq_true this

/-- C4 witness: the theorem applied at a concrete configuration. -/
theorem c4_witness :
    (∀ c ∈ build_charset true true true true "" true, c ∉ AMBIGUOUS) ∧
    build_charset true false false false "" false = string_ascii_lowercase :=
  ⟨(c4_build_charset true true true true "" true).2.1 rfl,
   (c4_build_charset true true true true "" true).2.2.2.2⟩

/-! ### C5: wordlist normalization -/

theorem lineAccept_some (line : List Char) (w : String)
    (h : lineAccept line = some w) :
    stripChars line ≠ [] ∧
    (∀ ch ∈ stripChars line,
      ('a' ≤ ch.toLower ∧ ch.toLower ≤ 'z') ∨ ch = Char.ofNat 39 ∨ ch = '-') ∧
    w = String.mk ((stripChars line).map Char.toLower) := by
  rw [lineAccept] at h
  split at h
  · exact absurd h (by simp)
  · next hne =>
    split at h
    · next hall =>
      refine ⟨hne, ?_, (Option.some_injective _ h).symm⟩
      intro ch hch
      exact of_decide_eq_true (List.all_eq_true.mp hall ch hch)
    · exact absurd h (by simp)

/-- C5: the wordlist filter trims each line, skips empty lines, accepts a
line only when every character satisfies the letter/apostrophe/hyphen test,
lowercases accepted words and deduplicates preserving first-seen order:
the result is duplicate-free, every word is non-empty and made of lowercase
ASCII letters, apostrophes and hyphens, the result is an order-preserving
subsequence of the accepted-words sequence with exactly its members, and
the documented example input yields exactly ["cat", "dog", "foo-bar"]. -/
theorem c5_load_wordlist (text : String) :
    (load_wordlist text).Nodup ∧
    (∀ w ∈ load_wordlist text, w.toList ≠ [] ∧ ∀ ch ∈ w.toList,
        ('a' ≤ ch ∧ ch ≤ 'z') ∨ ch = Char.ofNat 39 ∨ ch = '-') ∧
    (load_wordlist text).Sublist ((splitLines text).filterMap lineAccept) ∧
    (∀ w, w ∈ load_wordlist text ↔ w ∈ (splitLines text).filterMap lineAccept) ∧
    load_wordlist "cat\ncat\nDog\n123\nfoo-bar\n" = ["cat", "dog", "foo-bar"] := by
  refine ⟨dedupFirst_nodup _, ?_, dedupFirst_sublist _, fun w => dedupFirst_mem _ w, by decide⟩
  intro w hw
  rw [load_wordlist, dedupFirst_mem, List.mem_filterMap] at hw
  obtain ⟨line, _, hacc⟩ := hw
  obtain ⟨hne, hall, rfl⟩ := lineAccept_some line w hacc
  constructor
  · simpa using hne
  · intro ch hch
    simp only [String.toList, List.mem_map] at hch
    obtain ⟨c, hc, rfl⟩ := hch
    rcases hall c hc with h | h | h
    · exact Or.inl h
    · subst h; exact Or.inr (Or.inl (by decide))
    · subst h; exact Or.inr (Or.inr (by decide))

/-- C5 witness: the theorem applied at the documented example input. -/
theorem c5_witness :
    load_wordlist "cat\ncat\nDog\n123\nfoo-bar\n" = ["cat", "dog", "foo-bar"] ∧
    ("cat" ∈ load_wordlist "cat\ncat\nDog\n123\nfoo-bar\n" ↔
      "cat" ∈ (splitLines "cat\ncat\nDog\n123\nfoo-bar\n").filterMap lineAccept) :=
  ⟨(c5_load_wordlist "x").2.2.2.2,
   (c5_load_wordlist "cat\ncat\nDog\n123\nfoo-bar\n").2.2.2.1 "cat"⟩

/-! ### C6: entropy estimate -/

/-- C6: character-mode entropy is exactly `L * log2 S` bits for `L > 0` and
`S > 1`, and `0` whenever `S ≤ 1` or `L ≤ 0`. -/
theorem c6_estimate_entropy (L S : Int) :
    (0 < L → 1 < S →
      estimate_entropy_bits L S = (L : ℝ) * Real.logb 2 (S : ℝ)) ∧
    (S ≤ 1 ∨ L ≤ 0 → estimate_entropy_bits L S = 0) := by
  constructor
  · intro hL hS
    rw [estimate_entropy_bits, if_neg (by omega)]
  · intro h
    rw [estimate_entropy_bits, if_pos (h.elim Or.inr Or.inl)]

/-- C6 witness: the theorem applied at concrete sizes. -/
theorem c6_witness :
    ((0 : Int) < 8 ∧ (1 : Int) < 2 ∧
      estimate_entropy_bits 8 2 = ((8 : Int) : ℝ) * Real.logb 2 ((2 : Int) : ℝ)) ∧
    ((1 : Int) ≤ 1 ∨ (5 : Int) ≤ 0) ∧ estimate_entropy_bits 5 1 = 0 :=
  ⟨⟨by decide, by decide, (c6_estimate_entropy 8 2).1 (by decide) (by decide)⟩,
   Or.inl (by decide), (c6_estimate_entropy 5 1).2 (Or.inl (by decide))⟩

/-! ### C7: atomic wordlist replacement -/

/-- C7: loading a wordlist is atomic for the active vocabulary — an empty
filtered list fails and leaves the current list unchanged, and a non-empty
filtered list replaces the current list wholesale, so no current word
survives unless it is in the newly loaded list. -/
theorem c7_load_atomic (current : List String) (text : String) :
    (load_wordlist text = [] → load_wordlist_update current text = (current, false)) ∧
    (load_wordlist text ≠ [] →
      load_wordlist_update current text = (load_wordlist text, true) ∧
      ∀ w ∈ current, w ∈ (load_wordlist_update current text).1 →
        w ∈ load_wordlist text) := by
  constructor
  · intro h
    rw [load_wordlist_update, if_neg (by simp [h])]
  · intro h
    have hupd : load_wordlist_update current text = (load_wordlist text, true) := by
      rw [load_wordlist_update, if_pos h]
    exact ⟨hupd, fun w _ hw => by rwa [hupd] at hw⟩

/-- C7 witness: the theorem applied at a concrete current list and text. -/
theorem c7_witness :
    load_wordlist "cat\n" ≠ [] ∧
    load_wordlist_update ["zzz"] "cat\n" = (load_wordlist "cat\n", true) :=
  ⟨by decide, ((c7_load_atomic ["zzz"] "cat\n").2 (by decide)).1⟩

/-! ### C9: passphrase with no vocabulary -/

/-- C9: requesting passphrases with an empty wordlist is rejected with the
labelled no-wordlist error before any generation happens. -/
theorem c9_empty_vocabulary (n count : Nat) (sepText : String) (cap : Bool)
    (tapes : List (List Nat)) :
    on_generate_passphrase [] n count sepText cap tapes =
      .error "No wordlist available. Load a wordlist first." := by
  rw [on_generate_passphrase, if_pos rfl]

/-! ### C8: passphrase generation -/

theorem secrets_choice_mem {α : Type} [Inhabited α] (seq : List α) (h : Nat)
    (hs : seq ≠ []) : secrets_choice seq h ∈ seq := by
  have hlen : 0 < seq.length := List.length_pos.mpr hs
  have hlt : h % seq.length < seq.length := Nat.mod_lt _ hlen
  rw [secrets_choice, List.getD_eq_getElem?_getD, List.getElem?_eq_getElem hlt]
  exact List.getElem_mem hlt

theorem pyCapitalize_of_toLower_fixed (w : String)
    (hw : ∀ ch ∈ w.toList, Char.toLower ch = ch) :
    pyCapitalize w = upperFirstKeepRest w := by
  rw [pyCapitalize, upperFirstKeepRest]
  cases hl : w.toList with
  | nil => rfl
  | cons c rest =>
    have hcg : ∀ a ∈ rest, Char.toLower a = id a :=
      fun a ha => hw a (by rw [hl]; exact List.mem_cons_of_mem c ha)
    have hrest : rest.map Char.toLower = rest := by
      simpa using List.map_congr_left hcg
    simp [hrest]

theorem joinSep_empty_sep : ∀ l : List String, joinSep "" l = concatAll l
  | [] => rfl
  | [w] => by
    show w = w ++ ""
    exact (String.append_empty w).symm
  | w :: x :: rest => by
    show w ++ "" ++ joinSep "" (x :: rest) = w ++ concatAll (x :: rest)
    rw [joinSep_empty_sep (x :: rest), String.append_empty]

/-- C8: with at least one word requested and a non-empty vocabulary of
lowercase words, `generate_passphrase` draws `n_words` words (with
replacement) from the vocabulary and joins them with the separator; with
`cap` set, each drawn word gets its first letter uppercased and the rest
kept as drawn; an empty separator yields plain concatenation. -/
theorem c8_generate_passphrase (n_words : Nat) (words : List String) (sep : String)
    (cap : Bool) (tape : List Nat)
    (_hn : 1 ≤ n_words) (hw : words ≠ [])
    (hlc : ∀ w ∈ words, ∀ ch ∈ w.toList, Char.toLower ch = ch) :
    ∃ picks : List String, picks.length = n_words ∧ (∀ w ∈ picks, w ∈ words) ∧
      generate_passphrase n_words words sep cap tape =
        joinSep sep (if cap then picks.map upperFirstKeepRest else picks) ∧
      (sep = "" → generate_passphrase n_words words sep cap tape =
        concatAll (if cap then picks.map upperFirstKeepRest else picks)) := by
  refine ⟨(List.range n_words).map (fun k => secrets_choice words (tape.getD k 0)),
    by simp, ?_, ?_, ?_⟩
  · intro w hwp
    rw [List.mem_map] at hwp
    obtain ⟨k, _, rfl⟩ := hwp
    exact secrets_choice_mem words _ hw
  · rw [generate_passphrase]
    cases cap with
    | false => rfl
    | true =>
      rw [if_pos rfl, if_pos rfl, List.map_congr_left]
      intro w hwp
      rw [List.mem_map] at hwp
      obtain ⟨k, _, rfl⟩ := hwp
      exact pyCapitalize_of_toLower_fixed _ (hlc _ (secrets_choice_mem words _ hw))
  · rintro rfl
    rw [generate_passphrase]
    cases cap with
    | false => exact joinSep_empty_sep _
    | true =>
      rw [if_pos rfl, if_pos rfl, joinSep_empty_sep, List.map_congr_left]
      intro w hwp
      rw [List.mem_map] at hwp
      obtain ⟨k, _, rfl⟩ := hwp
      exact pyCapitalize_of_toLower_fixed _ (hlc _ (secrets_choice_mem words _ hw))

/-- C8 witness: the theorem applied at a concrete call. -/
theorem c8_witness :
    1 ≤ 2 ∧ (["cat", "dog"] : List String) ≠ [] ∧
    ∃ picks : List String, picks.length = 2 ∧
      (∀ w ∈ picks, w ∈ (["cat", "dog"] : List String)) ∧
      generate_passphrase 2 ["cat", "dog"] "-" true [1, 0] =
        joinSep "-" (if true then picks.map upperFirstKeepRest else picks) ∧
      ("-" = "" → generate_passphrase 2 ["cat", "dog"] "-" true [1, 0] =
        concatAll (if true then picks.map upperFirstKeepRest else picks)) :=
  ⟨by decide, by decide,
   c8_generate_passphrase 2 ["cat", "dog"] "-" true [1, 0]
     (by decide) (by decide) (by decide)⟩

/-! ### Lemmas about the draw phases of generate_with_requirements -/

theorem drawN_length {α : Type} [Inhabited α] (pool : List α) :
    ∀ (n : Nat) (tape : List Nat), (drawN pool n tape).1.length = n
  | 0, _ => rfl
  | n + 1, tape => by
    simp only [drawN, List.length_cons, drawN_length pool n]

theorem drawN_mem {α : Type} [Inhabited α] (pool : List α) (hp : pool ≠ []) :
    ∀ (n : Nat) (tape : List Nat) (c : α), c ∈ (drawN pool n tape).1 → c ∈ pool
  | n + 1, tape, c, hc => by
    simp only [drawN, List.mem_cons] at hc
    rcases hc with rfl | hc
    · exact secrets_choice_mem pool _ hp
    · exact drawN_mem pool hp n tape.tail c hc

theorem dictGet_subset (pools : List (String × List Char)) (fc : List Char)
    (hsub : ∀ kp ∈ pools, ∀ c ∈ kp.2, c ∈ fc) (k : String) :
    ∀ c ∈ dictGet pools k, c ∈ fc := by
  intro c hc
  rw [dictGet] at hc
  split at hc
  · next kp hfind => exact hsub kp (List.mem_of_find?_eq_some hfind) c hc
  · exact absurd hc (List.not_mem_nil c)

theorem drawRequired_cons (pools : List (String × List Char)) (k : String) (n : Int)
    (rest : List (String × Int)) (tape : List Nat) :
    drawRequired pools ((k, n) :: rest) tape =
      if n ≠ 0 ∧ dictGet pools k = [] then .error (poolErrMsg k)
      else match drawRequired pools rest (drawN (dictGet pools k) n.toNat tape).2 with
        | .ok p => .ok ((drawN (dictGet pools k) n.toNat tape).1 ++ p.1, p.2)
        | .error e => .error e := rfl

theorem drawRequired_ok (pools : List (String × List Char)) :
    ∀ (required : List (String × Int)) (tape : List Nat),
      (∀ kn ∈ required, kn.2 = 0 ∨ dictGet pools kn.1 ≠ []) →
      ∃ cs t, drawRequired pools required tape = .ok (cs, t) ∧
        cs.length = (required.map (fun kn => kn.2.toNat)).sum ∧
        (∀ c ∈ cs, ∃ kn ∈ required, c ∈ dictGet pools kn.1) ∧
        (∀ kn ∈ required, kn.2.toNat ≤
          cs.countP (fun c => decide (c ∈ dictGet pools kn.1))) := by
  intro required
  induction required with
  | nil =>
    intro tape _
    exact ⟨[], tape, rfl, rfl, by simp, by simp⟩
  | cons hd rest ih =>
    intro tape hvalid
    obtain ⟨k, n⟩ := hd
    have hguard : ¬(n ≠ 0 ∧ dictGet pools k = []) := by
      rcases hvalid (k, n) (List.mem_cons_self _ _) with h0 | hpool
      · intro hcon; exact hcon.1 h0
      · intro hcon; exact hpool hcon.2
    obtain ⟨cs, t, hdr, hlen, hmem, hcnt⟩ :=
      ih (drawN (dictGet pools k) n.toNat tape).2
        (fun kn hkn => hvalid kn (List.mem_cons_of_mem _ hkn))
    have hchunk : ∀ c ∈ (drawN (dictGet pools k) n.toNat tape).1,
        c ∈ dictGet pools k := by
      by_cases hpe : dictGet pools k = []
      · rcases hvalid (k, n) (List.mem_cons_self _ _) with h0 | hpool
        · have hn0 : n = 0 := h0
          subst hn0
          intro c hc
          exact absurd hc (List.not_mem_nil c)
        · exact absurd hpe hpool
      · intro c hc
        exact drawN_mem _ hpe _ tape c hc
    refine ⟨(drawN (dictGet pools k) n.toNat tape).1 ++ cs, t, ?_, ?_, ?_, ?_⟩
    · rw [drawRequired_cons, if_neg hguard, hdr]
    · rw [List.length_append, drawN_length, hlen, List.map_cons, List.sum_cons]
    · intro c hc
      rcases List.mem_append.mp hc with hc | hc
      · exact ⟨(k, n), List.mem_cons_self _ _, hchunk c hc⟩
      · obtain ⟨kn, hkn, hcp⟩ := hmem c hc
        exact ⟨kn, List.mem_cons_of_mem _ hkn, hcp⟩
    · intro kn hkn
      rcases List.mem_cons.mp hkn with heq | hkn
      · subst heq
        show n.toNat ≤ List.countP (fun c => decide (c ∈ dictGet pools k))
          ((drawN (dictGet pools k) n.toNat tape).1 ++ cs)
        rw [List.countP_append]
        refine le_trans ?_ (Nat.le_add_right _ _)
        have heq2 : ((drawN (dictGet pools k) n.toNat tape).1).countP
            (fun c => decide (c ∈ dictGet pools k)) =
            ((drawN (dictGet pools k) n.toNat tape).1).length :=
          List.countP_eq_length.mpr (fun c hc => decide_eq_true (hchunk c hc))
        rw [heq2, drawN_length]
      · rw [List.countP_append]
        exact le_trans (hcnt kn hkn) (Nat.le_add_left _ _)

theorem drawRequired_err (pools : List (String × List Char)) :
    ∀ (required : List (String × Int)) (tape : List Nat),
      (∃ kn ∈ required, kn.2 ≠ 0 ∧ dictGet pools kn.1 = []) →
      ∃ k, drawRequired pools required tape = .error (poolErrMsg k) := by
  intro required
  induction required with
  | nil =>
    intro tape h
    obtain ⟨kn, hkn, _⟩ := h
    exact absurd hkn (List.not_mem_nil kn)
  | cons hd rest ih =>
    intro tape h
    obtain ⟨k, n⟩ := hd
    by_cases hguard : n ≠ 0 ∧ dictGet pools k = []
    · exact ⟨k, by rw [drawRequired, if_pos hguard]⟩
    · have hoff : ∃ kn ∈ rest, kn.2 ≠ 0 ∧ dictGet pools kn.1 = [] := by
        obtain ⟨kn, hkn, hkn2⟩ := h
        rcases List.mem_cons.mp hkn with rfl | hkn
        · exact absurd hkn2 hguard
        · exact ⟨kn, hkn, hkn2⟩
      obtain ⟨k2, hk2⟩ := ih (drawN (dictGet pools k) n.toNat tape).2 hoff
      exact ⟨k2, by rw [drawRequired_cons, if_neg hguard, hk2]⟩

theorem totalRequired_cast (required : List (String × Int)) :
    (((required.map (fun kn => kn.2.toNat)).sum : Nat) : Int) =
      totalRequired required := by
  induction required with
  | nil => rfl
  | cons hd rest ih =>
    rw [totalRequired, List.map_cons, List.sum_cons, List.map_cons, List.sum_cons,
      Nat.cast_add]
    rw [totalRequired] at ih
    rw [ih]
    omega

/-! ### The Fisher–Yates shuffle permutes its input -/

theorem set_getElem_cons_perm {α : Type} :
    ∀ (t : List α) (m : Nat) (x : α) (h : m < t.length),
      (t.get ⟨m, h⟩ :: t.set m x).Perm (x :: t)
  | y :: s, 0, x, _ => List.Perm.swap x y s
  | y :: s, m + 1, x, h => by
    have hm : m < s.length := Nat.lt_of_succ_lt_succ h
    have h1 : (s.get ⟨m, hm⟩ :: y :: s.set m x).Perm (y :: s.get ⟨m, hm⟩ :: s.set m x) :=
      List.Perm.swap y (s.get ⟨m, hm⟩) _
    have h2 : (y :: s.get ⟨m, hm⟩ :: s.set m x).Perm (y :: x :: s) :=
      (set_getElem_cons_perm s m x hm).cons y
    have h3 : (y :: x :: s).Perm (x :: y :: s) := List.Perm.swap x y s
    exact (h1.trans h2).trans h3

theorem set_set_perm {α : Type} :
    ∀ (l : List α) (i j : Nat) (hi : i < l.length) (hj : j < l.length),
      ((l.set i (l.get ⟨j, hj⟩)).set j (l.get ⟨i, hi⟩)).Perm l
  | a :: t, 0, 0, _, _ => by simp
  | a :: t, 0, m + 1, hi, hj => by
    have hm : m < t.length := Nat.lt_of_succ_lt_succ hj
    have : ((a :: t).set 0 ((a :: t).get ⟨m + 1, hj⟩)).set (m + 1) ((a :: t).get ⟨0, hi⟩)
        = t.get ⟨m, hm⟩ :: t.set m a := rfl
    rw [this]
    exact set_getElem_cons_perm t m a hm
  | a :: t, n + 1, 0, hi, hj => by
    have hn : n < t.length := Nat.lt_of_succ_lt_succ hi
    have : ((a :: t).set (n + 1) ((a :: t).get ⟨0, hj⟩)).set 0 ((a :: t).get ⟨n + 1, hi⟩)
        = t.get ⟨n, hn⟩ :: t.set n a := rfl
    rw [this]
    exact set_getElem_cons_perm t n a hn
  | a :: t, n + 1, m + 1, hi, hj => by
    have hn : n < t.length := Nat.lt_of_succ_lt_succ hi
    have hm : m < t.length := Nat.lt_of_succ_lt_succ hj
    have : ((a :: t).set (n + 1) ((a :: t).get ⟨m + 1, hj⟩)).set (m + 1)
          ((a :: t).get ⟨n + 1, hi⟩)
        = a :: ((t.set n (t.get ⟨m, hm⟩)).set m (t.get ⟨n, hn⟩)) := rfl
    rw [this]
    exact (set_set_perm t n m hn hm).cons a

theorem listSwap_perm {α : Type} (l : List α) (i j : Nat) :
    (listSwap l i j).Perm l := by
  rw [listSwap]
  cases h1 : l[i]? with
  | none => exact List.Perm.refl l
  | some a =>
    cases h2 : l[j]? with
    | none => exact List.Perm.refl l
    | some b =>
      obtain ⟨hi, ha⟩ := List.getElem?_eq_some_iff.mp h1
      obtain ⟨hj, hb⟩ := List.getElem?_eq_some_iff.mp h2
      have ha' : l.get ⟨i, hi⟩ = a := ha
      have hb' : l.get ⟨j, hj⟩ = b := hb
      rw [← ha', ← hb']
      exact set_set_perm l i j hi hj

theorem fyAux_perm {α : Type} :
    ∀ (i : Nat) (l : List α) (tape : List Nat), (fyAux l i tape).Perm l
  | 0, l, _ => List.Perm.refl l
  | i + 1, l, tape =>
    (fyAux_perm i _ tape.tail).trans (listSwap_perm l (i + 1) (tape.headD 0))

theorem fyShuffle_perm {α : Type} (l : List α) (tape : List Nat) :
    (fyShuffle l tape).Perm l :=
  fyAux_perm (l.length - 1) l tape

/-! ### C1: generate_with_requirements satisfies its contract -/

/-- C1: under the preconditions (non-empty full charset, pools contained in
the full charset, non-negative per-class counts with non-empty pools for
positive counts, clamped required total at most the length) the generator
succeeds with a password of exactly `length` characters, all from the full
charset, containing at least the required number of characters from each
class pool. -/
theorem c1_generate_with_requirements (length : Nat)
    (pools : List (String × List Char)) (required : List (String × Int))
    (full_charset : List Char) (reqTape fillTape shuffleTape : List Nat)
    (hfc : full_charset ≠ [])
    (hsub : ∀ kp ∈ pools, ∀ c ∈ kp.2, c ∈ full_charset)
    (hnn : ∀ kn ∈ required, 0 ≤ kn.2)
    (hpool : ∀ kn ∈ required, 0 < kn.2 → dictGet pools kn.1 ≠ [])
    (hsum : totalRequired required ≤ (length : Int)) :
    ∃ pw, generate_with_requirements length pools required full_charset
        reqTape fillTape shuffleTape = .ok pw ∧
      pw.length = length ∧ (∀ c ∈ pw, c ∈ full_charset) ∧
      ∀ kn ∈ required, kn.2.toNat ≤
        pw.countP (fun c => decide (c ∈ dictGet pools kn.1)) := by
  have hvalid : ∀ kn ∈ required, kn.2 = 0 ∨ dictGet pools kn.1 ≠ [] := by
    intro kn hkn
    rcases lt_or_eq_of_le (hnn kn hkn) with h | h
    · exact Or.inr (hpool kn hkn h)
    · exact Or.inl h.symm
  obtain ⟨cs, t, hdr, hlen, hmem, hcnt⟩ := drawRequired_ok pools required reqTape hvalid
  have hcsle : cs.length ≤ length := by
    have := totalRequired_cast required
    rw [hlen]
    omega
  set fillers := (drawN full_charset (length - cs.length) fillTape).1 with hfill
  have hgen : generate_with_requirements length pools required full_charset
      reqTape fillTape shuffleTape = .ok (fyShuffle (cs ++ fillers) shuffleTape) := by
    rw [generate_with_requirements, if_neg hfc, if_neg (not_lt.mpr hsum), hdr]
  have hperm : (fyShuffle (cs ++ fillers) shuffleTape).Perm (cs ++ fillers) :=
    fyShuffle_perm _ _
  refine ⟨fyShuffle (cs ++ fillers) shuffleTape, hgen, ?_, ?_, ?_⟩
  · rw [hperm.length_eq, List.length_append, hfill, drawN_length]
    omega
  · intro c hc
    rcases List.mem_append.mp (hperm.mem_iff.mp hc) with hc | hc
    · obtain ⟨kn, _, hcp⟩ := hmem c hc
      exact dictGet_subset pools full_charset hsub kn.1 c hcp
    · exact drawN_mem full_charset hfc _ fillTape c hc
  · intro kn hkn
    rw [hperm.countP_eq, List.countP_append]
    exact le_trans (hcnt kn hkn) (Nat.le_add_right _ _)

/-- C1 witness: the theorem applied at a concrete valid configuration. -/
theorem c1_witness :
    (['a', 'b'] : List Char) ≠ [] ∧
    totalRequired [("lower", 1)] ≤ (2 : Int) ∧
    ∃ pw, generate_with_requirements 2 [("lower", ['a', 'b'])] [("lower", 1)]
        ['a', 'b'] [] [] [] = .ok pw ∧
      pw.length = 2 ∧ (∀ c ∈ pw, c ∈ (['a', 'b'] : List Char)) ∧
      ∀ kn ∈ ([("lower", 1)] : List (String × Int)), kn.2.toNat ≤
        pw.countP (fun c => decide (c ∈ dictGet [("lower", ['a', 'b'])] kn.1)) :=
  ⟨by decide, by decide,
   c1_generate_with_requirements 2 [("lower", ['a', 'b'])] [("lower", 1)]
     ['a', 'b'] [] [] [] (by decide) (by decide) (by decide) (by decide) (by decide)⟩

/-! ### C3: precondition violations are rejected with labelled errors -/

/-- C3: each precondition violation of `generate_with_requirements` is
rejected with its labelled error — an empty full charset, a clamped
required total exceeding the length (the exceeds-length message), or a
class with non-zero required count and empty pool (the empty-pool
message) — and an error result is never a password (all-or-nothing). -/
theorem c3_rejects_violations (length : Nat)
    (pools : List (String × List Char)) (required : List (String × Int))
    (full_charset : List Char) (reqTape fillTape shuffleTape : List Nat) :
    (full_charset = [] →
      generate_with_requirements length pools required full_charset
        reqTape fillTape shuffleTape = .error "Character set is empty.") ∧
    (full_charset ≠ [] → (length : Int) < totalRequired required →
      generate_with_requirements length pools required full_charset
        reqTape fillTape shuffleTape =
        .error (exceedsMsg (totalRequired required) length)) ∧
    (full_charset ≠ [] → totalRequired required ≤ (length : Int) →
      (∃ kn ∈ required, kn.2 ≠ 0 ∧ dictGet pools kn.1 = []) →
      ∃ k, generate_with_requirements length pools required full_charset
        reqTape fillTape shuffleTape = .error (poolErrMsg k)) ∧
    (∀ msg pw, generate_with_requirements length pools required full_charset
        reqTape fillTape shuffleTape = .error msg →
      generate_with_requirements length pools required full_charset
        reqTape fillTape shuffleTape ≠ .ok pw) := by
  refine ⟨?_, ?_, ?_, ?_⟩
  · intro h
    rw [generate_with_requirements, if_pos h]
  · intro hfc hlt
    rw [generate_with_requirements, if_neg hfc, if_pos hlt]
  · intro hfc hle hoff
    obtain ⟨k, hk⟩ := drawRequired_err pools required reqTape hoff
    exact ⟨k, by rw [generate_with_requirements, if_neg hfc,
      if_neg (not_lt.mpr hle), hk]⟩
  · intro msg pw herr hok
    rw [herr] at hok
    exact Except.noConfusion hok

/-- C3 witness: the documented example — required sum 25 against length 20
fails with the exceeds-length error. -/
theorem c3_witness :
    (['a'] : List Char) ≠ [] ∧
    (20 : Int) < totalRequired [("lower", 25)] ∧
    generate_with_requirements 20 [("lower", ['a'])] [("lower", 25)] ['a']
      [] [] [] = .error (exceedsMsg (totalRequired [("lower", 25)]) 20) :=
  ⟨by decide, by decide,
   (c3_rejects_violations 20 [("lower", ['a'])] [("lower", 25)] ['a'] [] [] []).2.1
     (by decide) (by decide)⟩

/-! ### C10: negative required counts -/

/-- C10 counterexample: a call whose only irregularity is a negative
per-class count does not always behave as if that count were 0 — with an
empty pool for the class, the negative count is rejected with the
empty-pool error while the zero count succeeds. -/
theorem c10_counterexample :
    generate_with_requirements 1 [] [("x", -1)] ['a'] [] [] [] =
      .error (poolErrMsg "x") ∧
    generate_with_requirements 1 [] [("x", 0)] ['a'] [] [] [] = .ok ['a'] :=
  ⟨rfl, rfl⟩

theorem totalRequired_clamp (required : List (String × Int)) :
    totalRequired (required.map (fun kn => (kn.1, max 0 kn.2))) =
      totalRequired required := by
  rw [totalRequired, totalRequired, List.map_map]
  congr 1
  apply List.map_congr_left
  intro kn _
  show max 0 (max 0 kn.2) = max 0 kn.2
  omega

theorem drawRequired_clamp (pools : List (String × List Char)) :
    ∀ (required : List (String × Int)) (tape : List Nat),
      (∀ kn ∈ required, kn.2 < 0 → dictGet pools kn.1 ≠ []) →
      drawRequired pools (required.map (fun kn => (kn.1, max 0 kn.2))) tape =
        drawRequired pools required tape := by
  intro required
  induction required with
  | nil => intro tape _; rfl
  | cons hd rest ih =>
    intro tape hneg
    obtain ⟨k, n⟩ := hd
    have hrest : ∀ kn ∈ rest, kn.2 < 0 → dictGet pools kn.1 ≠ [] :=
      fun kn hkn => hneg kn (List.mem_cons_of_mem _ hkn)
    rw [List.map_cons]
    show drawRequired pools ((k, max 0 n) :: rest.map (fun kn => (kn.1, max 0 kn.2)))
      tape = drawRequired pools ((k, n) :: rest) tape
    rw [drawRequired_cons, drawRequired_cons]
    rcases lt_trichotomy n 0 with hn | hn | hn
    · have hpool : dictGet pools k ≠ [] := hneg (k, n) (List.mem_cons_self _ _) hn
      have hmax : max 0 n = 0 := by omega
      have htn : n.toNat = 0 := by omega
      rw [hmax, htn, if_neg (fun hcon : (0 : Int) ≠ 0 ∧ _ => hcon.1 rfl),
        if_neg (fun hcon : n ≠ 0 ∧ _ => hpool hcon.2),
        show (0 : Int).toNat = 0 from rfl, ih _ hrest]
    · subst hn
      have hmax : max 0 (0 : Int) = 0 := by omega
      rw [hmax, if_neg (fun hcon : (0 : Int) ≠ 0 ∧ _ => hcon.1 rfl),
        if_neg (fun hcon : (0 : Int) ≠ 0 ∧ _ => hcon.1 rfl), ih _ hrest]
    · have hmax : max 0 n = n := by omega
      rw [hmax, ih _ hrest]

/-- C10 (amended): a negative required count contributes nothing to the
required-total check and draws no characters, and — provided the pool of
every class with a negative count is non-empty, since the code's truthiness
guard also fires for negative counts on an empty pool — the call behaves
exactly as if every negative count were 0. -/
theorem c10_negative_counts_amended (length : Nat)
    (pools : List (String × List Char)) (required : List (String × Int))
    (full_charset : List Char) (reqTape fillTape shuffleTape : List Nat)
    (hneg : ∀ kn ∈ required, kn.2 < 0 → dictGet pools kn.1 ≠ []) :
    generate_with_requirements length pools required full_charset
      reqTape fillTape shuffleTape =
    generate_with_requirements length pools
      (required.map (fun kn => (kn.1, max 0 kn.2))) full_charset
      reqTape fillTape shuffleTape := by
  rw [generate_with_requirements, generate_with_requirements,
    totalRequired_clamp, drawRequired_clamp pools required reqTape hneg]

/-- C10 witness: the amended theorem applied at a concrete call with a
negative count and a non-empty pool. -/
theorem c10_witness :
    (∀ kn ∈ ([("x", -1)] : List (String × Int)), kn.2 < 0 →
      dictGet [("x", ['b'])] kn.1 ≠ []) ∧
    generate_with_requirements 1 [("x", ['b'])] [("x", -1)] ['a', 'b'] [] [] [] =
      generate_with_requirements 1 [("x", ['b'])]
        (([("x", -1)] : List (String × Int)).map (fun kn => (kn.1, max 0 kn.2)))
        ['a', 'b'] [] [] [] :=
  ⟨by decide,
   c10_negative_counts_amended 1 [("x", ['b'])] [("x", -1)] ['a', 'b'] [] [] []
     (by decide)⟩

/-! ### C2: the Fisher–Yates shuffle is a bijection between draw vectors
and permutations -/

theorem getD_tail_nat (ds : List Nat) (k : Nat) :
    ds.tail.getD k 0 = ds.getD (k + 1) 0 := by
  cases ds with
  | nil => rfl
  | cons h t => rfl

theorem headD_eq_getD_nat (ds : List Nat) : ds.headD 0 = ds.getD 0 0 := by
  cases ds with
  | nil => rfl
  | cons h t => rfl

theorem listSwap_length {α : Type} (l : List α) (i j : Nat) :
    (listSwap l i j).length = l.length :=
  (listSwap_perm l i j).length_eq

theorem set_drop_high {α : Type} (l : List α) (a t : Nat) (x : α) (h : a < t) :
    (l.set a x).drop t = l.drop t := by
  rw [List.drop_set, if_pos h]

theorem listSwap_drop {α : Type} (l : List α) (i j t : Nat)
    (hi : i < t) (hj : j < t) : (listSwap l i j).drop t = l.drop t := by
  rw [listSwap]
  cases h1 : l[i]? with
  | none => rfl
  | some a =>
    cases h2 : l[j]? with
    | none => rfl
    | some b => rw [set_drop_high _ j t _ hj, set_drop_high _ i t _ hi]

theorem fyAux_drop {α : Type} :
    ∀ (i : Nat) (l : List α) (ds : List Nat),
      (∀ k, ds.getD k 0 ≤ i - k) →
      (fyAux l i ds).drop (i + 1) = l.drop (i + 1)
  | 0, l, ds, _ => rfl
  | i + 1, l, ds, hb => by
    have hj : ds.headD 0 ≤ i + 1 := by
      rw [headD_eq_getD_nat]
      have := hb 0
      omega
    have hb' : ∀ k, ds.tail.getD k 0 ≤ i - k := by
      intro k
      rw [getD_tail_nat]
      have := hb (k + 1)
      omega
    have hrec := fyAux_drop i (listSwap l (i + 1) (ds.headD 0)) ds.tail hb'
    show (fyAux (listSwap l (i + 1) (ds.headD 0)) i ds.tail).drop (i + 2) =
      l.drop (i + 2)
    have h1 : ∀ m : List α, m.drop (i + 2) = (m.drop (i + 1)).drop 1 := by
      intro m
      rw [List.drop_drop]
    rw [h1, hrec, ← h1, listSwap_drop l (i + 1) (ds.headD 0) (i + 2)
      (Nat.lt_succ_self _) (Nat.lt_succ_of_le hj)]

theorem head?_drop_eq {α : Type} (l : List α) (n : Nat) :
    (l.drop n).head? = l[n]? := by
  by_cases h : n < l.length
  · rw [List.drop_eq_getElem_cons h, List.getElem?_eq_getElem h]
    rfl
  · rw [List.drop_eq_nil_of_le (Nat.le_of_not_lt h),
      List.getElem?_eq_none (Nat.le_of_not_lt h)]
    rfl

theorem listSwap_getElem? {α : Type} (l : List α) (i j : Nat)
    (hi : i < l.length) (hj : j ≤ i) : (listSwap l i j)[i]? = l[j]? := by
  have hj' : j < l.length := Nat.lt_of_le_of_lt hj hi
  rw [listSwap, List.getElem?_eq_getElem hi, List.getElem?_eq_getElem hj']
  show ((l.set i l[j]).set j l[i])[i]? = some l[j]
  by_cases heq : j = i
  · subst heq
    rw [List.getElem?_set_self (by simpa using hj')]
  · rw [List.getElem?_set_ne heq, List.getElem?_set_self hi]

theorem nodup_getElem?_inj {α : Type} (l : List α) (hl : l.Nodup) (j j' : Nat)
    (hj : j < l.length) (hj' : j' < l.length) (h : l[j]? = l[j']?) : j = j' := by
  rcases lt_trichotomy j j' with hlt | heq | hgt
  · exact absurd h (List.nodup_iff_getElem?_ne_getElem?.mp hl j j' hlt hj')
  · exact heq
  · exact absurd h.symm (List.nodup_iff_getElem?_ne_getElem?.mp hl j' j hgt hj)

theorem perm_take_of_drop_eq {α : Type} (p l : List α) (m : Nat)
    (hperm : p.Perm l) (hdrop : p.drop m = l.drop m) :
    (p.take m).Perm (l.take m) := by
  rw [← Multiset.coe_eq_coe]
  have hp : (↑(p.take m) + ↑(p.drop m) : Multiset α) = (↑p : Multiset α) := by
    rw [Multiset.coe_add, List.take_append_drop]
  have hl : (↑(l.take m) + ↑(l.drop m) : Multiset α) = (↑l : Multiset α) := by
    rw [Multiset.coe_add, List.take_append_drop]
  have hpl : (↑p : Multiset α) = (↑l : Multiset α) := Multiset.coe_eq_coe.mpr hperm
  have := hp.trans (hpl.trans hl.symm)
  rw [hdrop] at this
  exact add_right_cancel this

theorem eq_of_perm_length_le_one {α : Type} (a b : List α)
    (h : a.Perm b) (hlen : a.length ≤ 1) : a = b := by
  cases a with
  | nil => exact (List.perm_nil.mp h.symm).symm
  | cons x t =>
    cases t with
    | nil => exact (List.perm_singleton.mp h.symm).symm
    | cons y s => simp at hlen

theorem fyAux_exists_unique {α : Type} :
    ∀ (i : Nat) (l p : List α), l.Nodup → i < l.length → p.Perm l →
      p.drop (i + 1) = l.drop (i + 1) →
      ∃! ds : List Nat, (ds.length = i ∧ ∀ k, ds.getD k 0 ≤ i - k) ∧
        fyAux l i ds = p := by
  intro i
  induction i with
  | zero =>
    intro l p hnd hlen hperm hdrop
    have hpl : p = l := by
      have htake : (p.take 1).Perm (l.take 1) :=
        perm_take_of_drop_eq p l 1 hperm hdrop
      have hteq : p.take 1 = l.take 1 :=
        eq_of_perm_length_le_one _ _ htake (List.length_take_le 1 p)
      rw [← List.take_append_drop 1 p, ← List.take_append_drop 1 l, hteq, hdrop]
    refine ⟨[], ⟨⟨rfl, fun k => Nat.zero_le _⟩, hpl.symm⟩, ?_⟩
    intro ds hds
    exact List.length_eq_zero.mp hds.1.1
  | succ i ih =>
    intro l p hnd hlen hperm hdrop
    have plen : p.length = l.length := hperm.length_eq
    have hp1 : i + 1 < p.length := by omega
    have htklen : i + 2 ≤ l.length := hlen
    have htk : (p.take (i + 2)).Perm (l.take (i + 2)) :=
      perm_take_of_drop_eq p l (i + 2) hperm hdrop
    have hvp : p[i + 1]? = some p[i + 1] := List.getElem?_eq_getElem hp1
    have hvtk : (p.take (i + 2))[i + 1]? = some p[i + 1] := by
      rw [List.getElem?_take_of_lt (Nat.lt_succ_self (i + 1))]
      exact hvp
    have hvmem : p[i + 1] ∈ l.take (i + 2) := htk.mem_iff.mp (List.getElem?_mem hvtk)
    obtain ⟨j, hjv⟩ := List.mem_iff_getElem?.mp hvmem
    have hjlt : j < i + 2 := by
      have := List.getElem?_eq_some_iff.mp hjv
      obtain ⟨hj, _⟩ := this
      have : j < (l.take (i + 2)).length := hj
      rw [List.length_take] at this
      omega
    have hjle : j ≤ i + 1 := by omega
    have hjl : l[j]? = some p[i + 1] := by
      rw [← List.getElem?_take_of_lt hjlt]
      exact hjv
    -- the swapped list after the first loop iteration with draw j
    have hl'perm : (listSwap l (i + 1) j).Perm l := listSwap_perm l (i + 1) j
    have hl'len : (listSwap l (i + 1) j).length = l.length := listSwap_length l (i + 1) j
    have hl'nd : (listSwap l (i + 1) j).Nodup := hl'perm.nodup_iff.mpr hnd
    have hl'val : (listSwap l (i + 1) j)[i + 1]? = some p[i + 1] := by
      rw [listSwap_getElem? l (i + 1) j hlen hjle]
      exact hjl
    have hl'drop : (listSwap l (i + 1) j).drop (i + 2) = l.drop (i + 2) :=
      listSwap_drop l (i + 1) j (i + 2) (Nat.lt_succ_self _) hjlt
    have hpd : p.drop (i + 1) = (listSwap l (i + 1) j).drop (i + 1) := by
      have hi1 : i + 1 < (listSwap l (i + 1) j).length := by omega
      rw [List.drop_eq_getElem_cons hp1, List.drop_eq_getElem_cons hi1, hdrop, ← hl'drop]
      have : (listSwap l (i + 1) j)[i + 1] = p[i + 1] := by
        have := List.getElem?_eq_getElem hi1
        rw [hl'val] at this
        exact (Option.some_injective _ this).symm
      rw [this]
    obtain ⟨ds', ⟨⟨hdlen, hdbound⟩, hdeq⟩, huniq⟩ :=
      ih (listSwap l (i + 1) j) p hl'nd (by omega) (hperm.trans hl'perm.symm) hpd
    refine ⟨j :: ds', ⟨⟨by simp [hdlen], ?_⟩, ?_⟩, ?_⟩
    · intro k
      cases k with
      | zero => simpa using hjle
      | succ k =>
        rw [List.getD_cons_succ]
        have := hdbound k
        omega
    · show fyAux (listSwap l (i + 1) ((j :: ds').headD 0)) i (j :: ds').tail = p
      exact hdeq
    · rintro ds2 ⟨⟨hlen2, hbound2⟩, heq2⟩
      cases ds2 with
      | nil => exact absurd hlen2 (by simp)
      | cons j2 t2 =>
        have hj2le : j2 ≤ i + 1 := by
          have := hbound2 0
          simpa using this
        have heq2' : fyAux (listSwap l (i + 1) j2) i t2 = p := heq2
        have hbt2 : ∀ k, t2.getD k 0 ≤ i - k := by
          intro k
          have := hbound2 (k + 1)
          rw [List.getD_cons_succ] at this
          omega
        have hdropt2 : (fyAux (listSwap l (i + 1) j2) i t2).drop (i + 1) =
            (listSwap l (i + 1) j2).drop (i + 1) :=
          fyAux_drop i _ t2 hbt2
        have hval2 : l[j2]? = some p[i + 1] := by
          have h1 : p[i + 1]? = (listSwap l (i + 1) j2)[i + 1]? := by
            rw [← head?_drop_eq, ← head?_drop_eq, ← heq2', hdropt2]
          rw [← listSwap_getElem? l (i + 1) j2 hlen hj2le, ← h1]
          exact hvp
        have hj2 : j2 = j := by
          refine nodup_getElem?_inj l hnd j2 j (by omega) (by omega) ?_
          rw [hval2, hjl]
        subst hj2
        have ht2 : t2 = ds' := by
          refine huniq t2 ⟨⟨by simpa using hlen2, hbt2⟩, heq2'⟩
        rw [ht2]

/-- C2: the shuffle of `generate_with_requirements` is the Fisher–Yates
procedure (`fyShuffle`: for `i` from the last index down to 1, draw `j`
uniformly in `[0, i]` and swap positions `i` and `j`), every vector of
in-range draws turns the drawn sequence into a permutation of it, and each
permutation of the positions `0 … n-1` is produced by exactly one vector of
draws — so the output order is a uniformly random permutation, independent
of the placement order of the drawn characters. -/
theorem c2_fisher_yates_bijection (n : Nat) :
    (∀ ds, validDraws n ds → (fyShuffle (List.range n) ds).Perm (List.range n)) ∧
    (∀ p : List Nat, p.Perm (List.range n) →
      ∃! ds, validDraws n ds ∧ fyShuffle (List.range n) ds = p) := by
  constructor
  · intro ds _
    exact fyShuffle_perm _ _
  · intro p hp
    cases n with
    | zero =>
      have hp0 : p = [] := by simpa using hp
      subst hp0
      refine ⟨[], ⟨⟨rfl, fun k => Nat.zero_le _⟩, rfl⟩, ?_⟩
      rintro ds ⟨⟨hdl, _⟩, _⟩
      exact List.length_eq_zero.mp hdl
    | succ m =>
      have hrlen : (List.range (m + 1)).length = m + 1 := List.length_range _
      have hshuffle : ∀ ds : List Nat,
          fyShuffle (List.range (m + 1)) ds = fyAux (List.range (m + 1)) m ds := by
        intro ds
        rw [fyShuffle, hrlen, Nat.add_sub_cancel]
      have hdropnil : p.drop (m + 1) = (List.range (m + 1)).drop (m + 1) := by
        rw [List.drop_eq_nil_of_le (by rw [hp.length_eq, hrlen]),
          List.drop_eq_nil_of_le (by rw [hrlen])]
      obtain ⟨ds, ⟨⟨hdlen, hdbound⟩, hdeq⟩, huniq⟩ :=
        fyAux_exists_unique m (List.range (m + 1)) p (List.nodup_range _)
          (by omega) hp hdropnil
      refine ⟨ds, ⟨⟨by simpa using hdlen, fun k => by simpa using hdbound k⟩, ?_⟩, ?_⟩
      · rw [hshuffle]
        exact hdeq
      · rintro ds2 ⟨⟨hdl2, hdb2⟩, heq2⟩
        refine huniq ds2 ⟨⟨by simpa using hdl2, fun k => by simpa using hdb2 k⟩, ?_⟩
        rw [← hshuffle]
        exact heq2

/-- C2 witness: the theorem applied at `n = 3` and the reversal
permutation. -/
theorem c2_witness :
    ([2, 1, 0] : List Nat).Perm (List.range 3) ∧
    (∃! ds, validDraws 3 ds ∧ fyShuffle (List.range 3) ds = [2, 1, 0]) ∧
    validDraws 3 [2, 1] ∧ (fyShuffle (List.range 3) [2, 1]).Perm (List.range 3) := by
  have hvalid : validDraws 3 [2, 1] := by
    refine ⟨rfl, ?_⟩
    intro k
    match k with
    | 0 => exact Nat.le_refl 2
    | 1 => exact Nat.le_refl 1
    | (k + 2) => exact Nat.zero_le _
  have hperm : ([2, 1, 0] : List Nat).Perm (List.range 3) := by decide
  exact ⟨hperm, (c2_fisher_yates_bijection 3).2 [2, 1, 0] hperm, hvalid,
    (c2_fisher_yates_bijection 3).1 [2, 1] hvalid⟩

end PasswordGen
